import Mathlib

/-!
Verification of the block-archive subsystem of go-genesis
(`packages/daemons/creating_blockchain.go`).

Bytes are modelled as `List Nat` (each element a byte value < 256 in all
well-formed data).  Machine integers (`int64`) are modelled as `Nat` where the
source only ever holds non-negative values, and the one signed comparison in
`writeNextBlocks` (`curBlockID - minToSave < lastSavedBlockID`) is computed in
`Int`, exactly as Go computes it in `int64`.

The file system is modelled explicitly: an archive file is
`Option (List Nat)` (`none` = the path does not exist).  `os.File.Read`,
`Seek` and `Stat` are modelled by list operations on the file's bytes; a
`Stat` failure is an explicit boolean input (`statFails`), since the model has
no other source of stat errors.
-/

namespace Genesis

/-- Error values produced by the archive subsystem.  Each constructor stands
for one distinct error site of the Go code (`utils.ErrInfo(...)` values and
I/O errors). -/
inductive Err
  | ioErr             -- an underlying read/seek/open failure
  | limitExceeded     -- "size > conts.MAX_BLOCK_SIZE"
  | emptyFile         -- "empty blockchain file"
  | decodeLengthErr   -- converter.DecodeLength failure
  | badLength         -- "bad length" in unmarshalBlockData
  deriving DecidableEq, Repr

/-- Outcome of running one of the Go functions.  `ok`/`err` model the normal
`(value, error)` return; `fatalExit` models `logger.Fatal` (logrus exits the
process, the function never returns); `nilPanic` models a nil-pointer
dereference panic. -/
inductive RunResult (α : Type)
  | ok (val : α)
  | err (e : Err)
  | fatalExit
  | nilPanic
  deriving DecidableEq, Repr

/-- Go type `blockData` of creating_blockchain.go. -/
structure blockData where
  ID : Nat
  Data : List Nat
  deriving DecidableEq, Repr

/-- WordSize is size of word in file (5 bytes). -/
def WordSize : Nat := 5

/-- Modelled from the spec: `converter.BinToDec` (the converter package is
outside src/).  Interprets a byte sequence as an unsigned big-endian integer
(§4.1: FIXED(W) fields encode an unsigned big-endian integer).  The Go
function returns `int64`; every value read through it here fits in 5 bytes,
hence is non-negative, so `Nat` is faithful. -/
def binToDec (bin : List Nat) : Nat :=
  bin.foldl (fun a b => a * 256 + b) 0

/-- Modelled from the spec: `converter.DecToBin` (the converter package is
outside src/).  Produces the `size`-byte big-endian encoding of `dec`,
keeping only the low `size` bytes (Go formats the value as hex and keeps the
last `2*size` hex digits). -/
def decToBin : Nat → Nat → List Nat
  | _, 0 => []
  | dec, n + 1 => decToBin (dec / 256) n ++ [dec % 256]

/-- Modelled from the spec: `converter.EncodeLength` (the converter package is
outside src/).  §4.1: a self-delimiting variable-width length encoding — a
single byte for small values, otherwise a count byte (high bit set, low bits
the number of length bytes) followed by that many big-endian bytes. -/
def encodeLength (l : Nat) : List Nat :=
  if l ≤ 127 then [l]
  else
    let buf := (decToBin l 8).dropWhile (fun b => b == 0)
    (128 + buf.length) :: buf

/-- Modelled from the spec: `converter.DecodeLength` (the converter package is
outside src/).  Reads one length value and returns it together with the bytes
after it (`DecodeLength` moves the caller's slice pointer).  An empty buffer
decodes to length 0 without error; a count byte announcing more bytes than
remain is an error (`none`). -/
def decodeLength (buf : List Nat) : Option (Nat × List Nat) :=
  match buf with
  | [] => some (0, [])
  | b :: rest =>
    if b < 128 then some (b, rest)
    else
      let k := b % 128
      if rest.length < k then none
      else some (binToDec (rest.take k), rest.drop k)

/-- Modelled from the spec: `converter.EncodeLengthPlusData` (the converter
package is outside src/): the encoded length of the data followed by the data
itself. -/
def encodeLengthPlusData (data : List Nat) : List Nat :=
  encodeLength data.length ++ data

/-- Go function `marshallFileBlock`: frame = `DecToBin(len(data),5)` header,
`data = DecToBin(ID,5) ++ EncodeLengthPlusData(Data)`, then
`DecToBin(len(sizeAndData),5)` trailer, where `sizeAndData` is header ++ data. -/
def marshallFileBlock (b : blockData) : List Nat :=
  let data := decToBin b.ID WordSize ++ encodeLengthPlusData b.Data
  let sizeAndData := decToBin data.length WordSize ++ data
  sizeAndData ++ decToBin sizeAndData.length WordSize

/-- Byte length of `id ++ length-prefix ++ payload`, the value stored in the
leading size field of a frame. -/
def innerLen (b : blockData) : Nat :=
  WordSize + (encodeLength b.Data.length).length + b.Data.length

/-- Go function `unmarshalBlockData`.  Call sites always pass a buffer of at
least `WordSize + 1` bytes (so the Go slicings `buff[:WordSize]`,
`buff[WordSize:]` never panic and neither does this model). -/
def unmarshalBlockData (buff : List Nat) : RunResult blockData :=
  let blockID := binToDec (buff.take WordSize)
  let buff1 := buff.drop WordSize
  match decodeLength buff1 with
  | none => .err .decodeLengthErr
  | some (blockDataLen, buff2) =>
    if blockDataLen > buff2.length then .err .badLength
    else .ok ⟨blockID, buff2.take blockDataLen⟩

/-- Go function `readBlock`, reading from the remaining bytes `input` of an
open file.  `io.ReadFull` of the 5-byte size word fails when fewer than 5
bytes remain; the single `r.Read(dataBinary)` into a `make`-zeroed buffer of
`size+WordSize` bytes fills what is available and leaves the rest zero,
failing only when nothing at all remains. -/
def readBlock (input : List Nat) (maxBlockSize : Nat) : RunResult (Option blockData) :=
  if input.length < WordSize then .err .ioErr
  else
    let size := binToDec (input.take WordSize)
    if size > maxBlockSize then .err .limitExceeded
    else if size = 0 then .ok none
    else
      let rest := input.drop WordSize
      if rest.length = 0 then .err .ioErr
      else
        let dataBinary := rest.take (size + WordSize) ++
          List.replicate (size + WordSize - rest.length) 0
        match unmarshalBlockData dataBinary with
        | .err e => .err e
        | .fatalExit => .fatalExit
        | .nilPanic => .nilPanic
        | .ok b => .ok (some b)

/-- Go function `getLastBlockID`.  A missing file (`none`) yields id 0 with no
error; `Stat` failure hits `logger.Fatal` (process exit); a zero-length file
is the "empty blockchain file" error; `Seek` relative to the end fails when
the resulting offset would be negative; after `readBlock`, the Go code reads
`block.ID` without checking `block` for nil, so the `size == 0` sentinel
result (`nil, nil`) is a nil-pointer dereference. -/
def getLastBlockID (statFails : Bool) (file : Option (List Nat)) (maxBlockSize : Nat) :
    RunResult Nat :=
  match file with
  | none => .ok 0
  | some bytes =>
    if statFails then .fatalExit
    else if bytes.length = 0 then .err .emptyFile
    else if bytes.length < WordSize then .err .ioErr
    else
      let size := binToDec (bytes.drop (bytes.length - WordSize))
      if size > maxBlockSize then .err .limitExceeded
      else if bytes.length < size + WordSize then .err .ioErr
      else
        match readBlock (bytes.drop (bytes.length - (size + WordSize))) maxBlockSize with
        | .err e => .err e
        | .fatalExit => .fatalExit
        | .nilPanic => .nilPanic
        | .ok none => .nilPanic
        | .ok (some b) => .ok b.ID

/-- Modelled from the spec: `model.GetBlockchain` (the model package is
outside src/).  §6: `get_blocks(from_id_exclusive, to_id_inclusive)` returns
the ledger's blocks with ids in `(startID, endID]` in ascending id order.
The ledger is a map from id to the block's payload (`none` = no such block). -/
def getBlockchain (startID endID : Nat) (ledger : Nat → Option (List Nat)) :
    List blockData :=
  (List.range' (startID + 1) (endID - startID)).filterMap
    (fun i => (ledger i).map (fun d => blockData.mk i d))

/-- Go function `writeNextBlocks`.  `curBlockID` is the chain height read from
`InfoBlock` and `maxBlockSize` the configured `syspar.GetMaxBlockSize()`.
The threshold comparison is Go `int64` arithmetic, hence computed in `Int`.
The returned value is the resulting state of the archive file: unchanged when
the threshold branch returns early, otherwise opened with `O_CREATE|O_APPEND`
and extended with the marshalled frames of the fetched blocks. -/
def writeNextBlocks (statFails : Bool) (maxBlockSize minToSave curBlockID : Nat)
    (ledger : Nat → Option (List Nat)) (file : Option (List Nat)) :
    RunResult (Option (List Nat)) :=
  match getLastBlockID statFails file maxBlockSize with
  | .err e => .err e
  | .fatalExit => .fatalExit
  | .nilPanic => .nilPanic
  | .ok lastSavedBlockID =>
    if (curBlockID : Int) - (minToSave : Int) < (lastSavedBlockID : Int) then .ok file
    else
      let blocks := getBlockchain lastSavedBlockID (lastSavedBlockID + minToSave) ledger
      .ok (some (file.getD [] ++ (blocks.map marshallFileBlock).flatten))

/-- One of the two error-shaped outcomes (a returned non-nil `error`). -/
def RunResult.isErr {α : Type} : RunResult α → Bool
  | .err _ => true
  | _ => false

theorem decToBin_length (x n : Nat) : (decToBin x n).length = n := by
  induction n generalizing x with
  | zero => rfl
  | succ n ih => simp [decToBin, ih]

theorem foldl_byte_shift (ys : List Nat) : ∀ a : Nat,
    ys.foldl (fun acc b => acc * 256 + b) a = a * 256 ^ ys.length + binToDec ys := by
  induction ys with
  | nil => intro a; simp [binToDec]
  | cons y t ih =>
    intro a
    have hy : binToDec (y :: t) = y * 256 ^ t.length + binToDec t := by
      have : binToDec (y :: t) = t.foldl (fun acc b => acc * 256 + b) y := by
        simp [binToDec]
      rw [this, ih y]
    simp only [List.foldl_cons, List.length_cons, hy, ih (a * 256 + y)]
    ring

theorem binToDec_append (xs ys : List Nat) :
    binToDec (xs ++ ys) = binToDec xs * 256 ^ ys.length + binToDec ys := by
  unfold binToDec
  rw [List.foldl_append]
  exact foldl_byte_shift ys _

theorem binToDec_decToBin (x n : Nat) : binToDec (decToBin x n) = x % 256 ^ n := by
  induction n generalizing x with
  | zero => simp [decToBin, binToDec, Nat.mod_one]
  | succ n ih =>
    show binToDec (decToBin (x / 256) n ++ [x % 256]) = _
    rw [binToDec_append, ih]
    have h1 : binToDec [x % 256] = x % 256 := by simp [binToDec]
    have h2 : (256 : Nat) ^ (n + 1) = 256 * 256 ^ n := by ring
    have h3 : x % (256 * 256 ^ n) = x % 256 + 256 * (x / 256 % 256 ^ n) := Nat.mod_mul
    simp only [h1, h2, h3, List.length_singleton, pow_one]
    omega

theorem decToBin_succ (x n : Nat) :
    decToBin x (n + 1) = x / 256 ^ n % 256 :: decToBin x n := by
  induction n generalizing x with
  | zero => simp [decToBin]
  | succ n ih =>
    show decToBin (x / 256) (n + 1) ++ [x % 256] = _
    rw [ih]
    have h1 : x / 256 / 256 ^ n = x / 256 ^ (n + 1) := by
      rw [Nat.div_div_eq_div_mul]
      congr 1
      ring
    simp only [h1, List.cons_append]
    congr 1

theorem binToDec_dropWhile_zero (xs : List Nat) :
    binToDec (xs.dropWhile (fun b => b == 0)) = binToDec xs := by
  induction xs with
  | nil => rfl
  | cons x t ih =>
    by_cases hx : x = 0
    · subst hx
      have h0 : binToDec (0 :: t) = binToDec t := by
        simp [binToDec]
      simpa [List.dropWhile, h0] using ih
    · have hb : (x == 0) = false := by simpa using hx
      simp [List.dropWhile, hb]

theorem encodeLength_length_pos (l : Nat) : 1 ≤ (encodeLength l).length := by
  unfold encodeLength
  by_cases h : l ≤ 127 <;> simp [h]

theorem decodeLength_encodeLength (l : Nat) (hl : l < 2 ^ 64) (rest : List Nat) :
    decodeLength (encodeLength l ++ rest) = some (l, rest) := by
  by_cases h : l ≤ 127
  · have he : encodeLength l = [l] := by simp [encodeLength, h]
    rw [he]
    show decodeLength (l :: rest) = some (l, rest)
    have hunfold : decodeLength (l :: rest) =
        if l < 128 then some (l, rest)
        else
          if rest.length < l % 128 then none
          else some (binToDec (rest.take (l % 128)), rest.drop (l % 128)) := rfl
    rw [hunfold, if_pos (by omega)]
  · have he : encodeLength l =
        (128 + ((decToBin l 8).dropWhile (fun b => b == 0)).length) ::
          (decToBin l 8).dropWhile (fun b => b == 0) := by
      simp [encodeLength, h]
    set buf := (decToBin l 8).dropWhile (fun b => b == 0) with hbuf
    have hle : buf.length ≤ 8 := by
      have := (List.dropWhile_suffix (l := decToBin l 8) (fun b => b == 0)).length_le
      rwa [decToBin_length] at this
    have hdec : binToDec buf = l := by
      rw [hbuf, binToDec_dropWhile_zero, binToDec_decToBin]
      have : (256 : Nat) ^ 8 = 2 ^ 64 := by norm_num
      rw [this]
      exact Nat.mod_eq_of_lt hl
    rw [he, List.cons_append]
    show decodeLength ((128 + buf.length) :: (buf ++ rest)) = some (l, rest)
    have hunfold : decodeLength ((128 + buf.length) :: (buf ++ rest)) =
        if (128 + buf.length) < 128 then some ((128 + buf.length), buf ++ rest)
        else
          if (buf ++ rest).length < (128 + buf.length) % 128 then none
          else some (binToDec ((buf ++ rest).take ((128 + buf.length) % 128)),
            (buf ++ rest).drop ((128 + buf.length) % 128)) := rfl
    rw [hunfold, if_neg (by omega)]
    have hk : (128 + buf.length) % 128 = buf.length := by omega
    rw [hk, if_neg (by simp [List.length_append]),
      List.take_left' rfl, List.drop_left' rfl, hdec]


theorem marshallFileBlock_eq (b : blockData) :
    marshallFileBlock b =
      decToBin (innerLen b) 5 ++
        ((decToBin b.ID 5 ++ (encodeLength b.Data.length ++ b.Data)) ++
          decToBin (innerLen b + 5) 5) := by
  simp only [marshallFileBlock, encodeLengthPlusData, WordSize]
  have h1 : (decToBin b.ID 5 ++ (encodeLength b.Data.length ++ b.Data)).length =
      innerLen b := by
    simp only [List.length_append, decToBin_length, innerLen, WordSize]
    omega
  rw [h1]
  have h2 : (decToBin (innerLen b) 5 ++
      (decToBin b.ID 5 ++ (encodeLength b.Data.length ++ b.Data))).length =
      innerLen b + 5 := by
    simp only [List.length_append, decToBin_length, h1]
    omega
  rw [h2, List.append_assoc]

theorem marshallFileBlock_length (b : blockData) :
    (marshallFileBlock b).length = innerLen b + 10 := by
  rw [marshallFileBlock_eq]
  simp only [List.length_append, decToBin_length, innerLen, WordSize]
  omega

theorem innerLen_ge (b : blockData) : 6 ≤ innerLen b := by
  have h := encodeLength_length_pos b.Data.length
  simp only [innerLen, WordSize]
  omega

theorem unmarshalBlockData_frame (id : Nat) (d extra : List Nat)
    (hd : d.length < 2 ^ 64) :
    unmarshalBlockData (decToBin id 5 ++ (encodeLength d.length ++ (d ++ extra))) =
      .ok ⟨id % 2 ^ 40, d⟩ := by
  have h5 : (decToBin id 5).length = 5 := decToBin_length id 5
  have hle : ¬ d.length > (d ++ extra).length := by
    simp [List.length_append]
  have h256 : (256 : Nat) ^ 5 = 2 ^ 40 := by norm_num
  simp only [unmarshalBlockData, WordSize, List.take_left' h5, List.drop_left' h5,
    decodeLength_encodeLength d.length hd, binToDec_decToBin, h256]
  rw [if_neg hle, List.take_left' rfl]

theorem readBlock_marshallFileBlock (b : blockData) (maxBlockSize : Nat)
    (hsz : innerLen b ≤ maxBlockSize) (hmax : maxBlockSize < 2 ^ 40) :
    readBlock (marshallFileBlock b) maxBlockSize =
      .ok (some ⟨b.ID % 2 ^ 40, b.Data⟩) := by
  have hlen : (marshallFileBlock b).length = innerLen b + 10 := marshallFileBlock_length b
  have hinner : 6 ≤ innerLen b := innerLen_ge b
  have h256 : (256 : Nat) ^ 5 = 2 ^ 40 := by norm_num
  have htake : (marshallFileBlock b).take 5 = decToBin (innerLen b) 5 := by
    rw [marshallFileBlock_eq]
    exact List.take_left' (decToBin_length _ _)
  have hsize : binToDec ((marshallFileBlock b).take 5) = innerLen b := by
    rw [htake, binToDec_decToBin, h256]
    exact Nat.mod_eq_of_lt (by omega)
  have hdrop : (marshallFileBlock b).drop 5 =
      (decToBin b.ID 5 ++ (encodeLength b.Data.length ++ b.Data)) ++
        decToBin (innerLen b + 5) 5 := by
    rw [marshallFileBlock_eq]
    exact List.drop_left' (decToBin_length _ _)
  have hdroplen : ((marshallFileBlock b).drop 5).length = innerLen b + 5 := by
    rw [hdrop]
    simp only [List.length_append, decToBin_length, innerLen, WordSize]
    omega
  simp only [readBlock, WordSize]
  rw [if_neg (by omega), hsize, if_neg (by omega), if_neg (by omega),
    if_neg (by omega)]
  have hfull : ((marshallFileBlock b).drop 5).take (innerLen b + 5) ++
      List.replicate (innerLen b + 5 - ((marshallFileBlock b).drop 5).length) 0 =
      decToBin b.ID 5 ++
        (encodeLength b.Data.length ++ (b.Data ++ decToBin (innerLen b + 5) 5)) := by
    rw [List.take_of_length_le (by omega), hdroplen]
    simp only [Nat.sub_self, List.replicate_zero, List.append_nil]
    rw [hdrop]
    simp [List.append_assoc]
  rw [hfull, unmarshalBlockData_frame b.ID b.Data _ (by
    have h40 : (2 : Nat) ^ 40 < 2 ^ 64 := by norm_num
    have := innerLen_ge b
    simp only [innerLen, WordSize] at hsz
    omega)]

theorem getLastBlockID_append (P : List Nat) (b : blockData) (maxBlockSize : Nat)
    (hsz : innerLen b + 5 ≤ maxBlockSize) (hmax : maxBlockSize < 2 ^ 40) :
    getLastBlockID false (some (P ++ marshallFileBlock b)) maxBlockSize =
      .ok (b.ID % 2 ^ 40) := by
  have hinner : 6 ≤ innerLen b := innerLen_ge b
  have h256 : (256 : Nat) ^ 5 = 2 ^ 40 := by norm_num
  have hlen : (P ++ marshallFileBlock b).length = P.length + (innerLen b + 10) := by
    rw [List.length_append, marshallFileBlock_length]
  have hshape : P ++ marshallFileBlock b =
      (P ++ (decToBin (innerLen b) 5 ++
        (decToBin b.ID 5 ++ (encodeLength b.Data.length ++ b.Data)))) ++
        decToBin (innerLen b + 5) 5 := by
    rw [marshallFileBlock_eq]
    simp [List.append_assoc]
  have hheadlen : (P ++ (decToBin (innerLen b) 5 ++
      (decToBin b.ID 5 ++ (encodeLength b.Data.length ++ b.Data)))).length =
      P.length + (innerLen b + 5) := by
    simp only [List.length_append, decToBin_length, innerLen, WordSize]
    omega
  have htrailer : (P ++ marshallFileBlock b).drop
      ((P ++ marshallFileBlock b).length - 5) = decToBin (innerLen b + 5) 5 := by
    rw [hlen]
    have heq : P.length + (innerLen b + 10) - 5 = P.length + (innerLen b + 5) := by
      omega
    rw [heq, hshape]
    exact List.drop_left' hheadlen
  have hsize : binToDec ((P ++ marshallFileBlock b).drop
      ((P ++ marshallFileBlock b).length - 5)) = innerLen b + 5 := by
    rw [htrailer, binToDec_decToBin, h256]
    exact Nat.mod_eq_of_lt (by omega)
  have hback : (P ++ marshallFileBlock b).drop
      ((P ++ marshallFileBlock b).length - (innerLen b + 5 + 5)) =
      marshallFileBlock b := by
    rw [hlen]
    have heq : P.length + (innerLen b + 10) - (innerLen b + 5 + 5) = P.length := by
      omega
    rw [heq]
    exact List.drop_left' rfl
  simp only [getLastBlockID, WordSize]
  rw [if_neg (show ¬(false = true) by simp), if_neg (by omega), if_neg (by omega),
    hsize, if_neg (by omega), if_neg (by omega), hback,
    readBlock_marshallFileBlock b maxBlockSize (by omega) hmax]

/-- C1 counterexample: for the record `(id 1, empty payload)` the leading and
trailing 5-byte size fields of the encoded frame are not bit-identical (the
header holds 6, the trailer 11). -/
theorem c1_counterexample :
    (marshallFileBlock ⟨1, []⟩).take 5 ≠
      (marshallFileBlock ⟨1, []⟩).drop ((marshallFileBlock ⟨1, []⟩).length - 5) := by
  decide

/-- C1 (amended): in every frame produced by `marshallFileBlock`, the leading
size field encodes `innerLen` (the byte length of id + length-prefix +
payload) while the trailing size field encodes `innerLen + WordSize` (that
length plus the leading size word); the two fields always differ. -/
theorem c1_header_trailer_differ (b : blockData) :
    (marshallFileBlock b).take 5 = decToBin (innerLen b) 5 ∧
    (marshallFileBlock b).drop ((marshallFileBlock b).length - 5) =
      decToBin (innerLen b + 5) 5 ∧
    (marshallFileBlock b).take 5 ≠
      (marshallFileBlock b).drop ((marshallFileBlock b).length - 5) := by
  have htake : (marshallFileBlock b).take 5 = decToBin (innerLen b) 5 := by
    rw [marshallFileBlock_eq]
    exact List.take_left' (decToBin_length _ _)
  have hheadlen : (decToBin (innerLen b) 5 ++
      ((decToBin b.ID 5 ++ (encodeLength b.Data.length ++ b.Data)))).length =
      innerLen b + 5 := by
    simp only [List.length_append, decToBin_length, innerLen, WordSize]
    omega
  have hdrop : (marshallFileBlock b).drop ((marshallFileBlock b).length - 5) =
      decToBin (innerLen b + 5) 5 := by
    rw [marshallFileBlock_length, marshallFileBlock_eq]
    have heq : innerLen b + 10 - 5 = innerLen b + 5 := by omega
    rw [heq, ← List.append_assoc]
    exact List.drop_left' hheadlen
  refine ⟨htake, hdrop, ?_⟩
  rw [htake, hdrop]
  intro hcontra
  have hbin := congrArg binToDec hcontra
  rw [binToDec_decToBin, binToDec_decToBin] at hbin
  have h256 : (256 : Nat) ^ 5 = 1099511627776 := by norm_num
  rw [h256] at hbin
  omega

/-- C3 counterexample: with `max_block_size = 1` the record `(id 0, payload
[0])` satisfies `len(payload) ≤ max_block_size`, yet decoding its encoded
frame does not return the record (the header size field, 7, exceeds the
limit, so `readBlock` rejects the frame). -/
theorem c3_counterexample :
    ([0] : List Nat).length ≤ 1 ∧
    readBlock (marshallFileBlock ⟨0, [0]⟩) 1 ≠ .ok (some ⟨0, [0]⟩) := by
  decide

/-- C3 (amended): for every record whose id is representable in the 5-byte
word and whose inner size (id field + length-prefix + payload, i.e.
`len(payload)` plus framing overhead) is at most `max_block_size` (itself
below 2^40), decoding the bytes produced by `marshallFileBlock` succeeds and
returns the original record. -/
theorem c3_roundtrip (b : blockData) (maxBlockSize : Nat)
    (hid : b.ID < 2 ^ 40) (hsz : innerLen b ≤ maxBlockSize)
    (hmax : maxBlockSize < 2 ^ 40) :
    readBlock (marshallFileBlock b) maxBlockSize = .ok (some b) := by
  rw [readBlock_marshallFileBlock b maxBlockSize hsz hmax, Nat.mod_eq_of_lt hid]

/-- C3 witness: the round trip at the concrete record `(3, [7, 8])` with
`max_block_size = 1000`. -/
theorem c3_witness :
    (3 : Nat) < 2 ^ 40 ∧ innerLen ⟨3, [7, 8]⟩ ≤ 1000 ∧ (1000 : Nat) < 2 ^ 40 ∧
    readBlock (marshallFileBlock ⟨3, [7, 8]⟩) 1000 = .ok (some ⟨3, [7, 8]⟩) :=
  ⟨by norm_num, by decide, by norm_num,
    c3_roundtrip ⟨3, [7, 8]⟩ 1000 (by norm_num) (by decide) (by norm_num)⟩

/-- C7: a declared size field exceeding `max_block_size` makes `readBlock`
return the limit error whatever bytes follow the size field (so nothing
sized from the declared value is ever materialised), and likewise the trailer
size check in `getLastBlockID` returns the limit error. -/
theorem c7_oversized_rejected (declared junk bytes : List Nat) (maxBlockSize : Nat)
    (hdlen : declared.length = 5)
    (hover : binToDec declared > maxBlockSize)
    (hblen : 5 ≤ bytes.length)
    (hbover : binToDec (bytes.drop (bytes.length - 5)) > maxBlockSize) :
    readBlock (declared ++ junk) maxBlockSize = .err .limitExceeded ∧
    getLastBlockID false (some bytes) maxBlockSize = .err .limitExceeded := by
  constructor
  · simp only [readBlock, WordSize]
    rw [if_neg (by rw [List.length_append, hdlen]; omega), List.take_left' hdlen,
      if_pos hover]
  · simp only [getLastBlockID, WordSize]
    rw [if_neg (show ¬(false = true) by simp), if_neg (by omega), if_neg (by omega),
      if_pos hbover]

/-- C7 witness: the all-255 size field with `max_block_size = 0`. -/
theorem c7_witness :
    readBlock ([255, 255, 255, 255, 255] ++ [9]) 0 = .err .limitExceeded ∧
    getLastBlockID false (some [255, 255, 255, 255, 255]) 0 = .err .limitExceeded :=
  c7_oversized_rejected [255, 255, 255, 255, 255] [9] [255, 255, 255, 255, 255] 0
    (by decide) (by decide) (by decide) (by decide)

/-- C8: a nonexistent archive path yields id 0 with no error, an existing
zero-length file yields the distinct "empty blockchain file" error, and the
two outcomes differ. -/
theorem c8_empty_vs_missing (maxBlockSize : Nat) :
    getLastBlockID false none maxBlockSize = .ok 0 ∧
    getLastBlockID false (some []) maxBlockSize = .err .emptyFile ∧
    (RunResult.ok 0 : RunResult Nat) ≠ .err .emptyFile := by
  refine ⟨rfl, rfl, by decide⟩

/-- C9: when the `Stat` call inside `getLastBlockID` fails on an existing
file, the function does not return an error value to its caller: it hits
`logger.Fatal`, which terminates the process (modelled as `fatalExit`). -/
theorem c9_stat_failure_fatal (maxBlockSize : Nat) (bytes : List Nat) :
    getLastBlockID true (some bytes) maxBlockSize = .fatalExit ∧
    ∀ e : Err, getLastBlockID true (some bytes) maxBlockSize ≠ .err e := by
  refine ⟨rfl, fun e he => ?_⟩
  exact RunResult.noConfusion he

/-- C10: on any existing file of at least 5 bytes whose trailing 5-byte word
decodes to the zero sentinel, `readBlock` reports the absent record as
`(nil, nil)` and `getLastBlockID` then dereferences the nil record when
reading its id: a nil-pointer panic. -/
theorem c10_zero_sentinel_nil_deref (bytes : List Nat) (maxBlockSize : Nat)
    (hlen : 5 ≤ bytes.length)
    (hzero : binToDec (bytes.drop (bytes.length - 5)) = 0) :
    getLastBlockID false (some bytes) maxBlockSize = .nilPanic := by
  have hsuffixlen : (bytes.drop (bytes.length - 5)).length = 5 := by
    rw [List.length_drop]
    omega
  simp only [getLastBlockID, WordSize]
  rw [if_neg (show ¬(false = true) by simp), if_neg (by omega), if_neg (by omega),
    hzero, if_neg (by omega), if_neg (by omega)]
  have hsub : bytes.length - (0 + 5) = bytes.length - 5 := by omega
  rw [hsub]
  have hread : readBlock (bytes.drop (bytes.length - 5)) maxBlockSize = .ok none := by
    simp only [readBlock, WordSize]
    rw [if_neg (by omega), List.take_of_length_le (by omega), hzero,
      if_neg (by omega), if_pos rfl]
  rw [hread]

/-- C10 witness: the 5-zero-byte file. -/
theorem c10_witness :
    5 ≤ ([0, 0, 0, 0, 0] : List Nat).length ∧
    getLastBlockID false (some [0, 0, 0, 0, 0]) 7 = .nilPanic :=
  ⟨by decide, c10_zero_sentinel_nil_deref [0, 0, 0, 0, 0] 7 (by decide) (by decide)⟩

/-- C2 counterexample: with `max_block_size = 1`, the single record
`(id 1, payload [0])` has its payload within the configured maximum, yet the
reverse locator does not return its id: the trailing size field (12) exceeds
the limit, so `getLastBlockID` fails. -/
theorem c2_counterexample :
    ([0] : List Nat).length ≤ 1 ∧
    getLastBlockID false
      (some ((([⟨1, [0]⟩] : List blockData).map marshallFileBlock).flatten)) 1 ≠
      .ok 1 := by
  decide

/-- C2 (amended): for every non-empty sequence of records with strictly
increasing ids, each id representable in the 5-byte word and each frame's
size fields (inner size plus the 5-byte word) within the configured maximum
(itself below 2^40), the reverse locator on the concatenation of their
encoded frames returns the last id; on a nonexistent path it returns id 0
with no error. -/
theorem c2_locate_last (recs : List blockData) (maxBlockSize : Nat) (h : recs ≠ [])
    (hinc : (recs.map blockData.ID).Pairwise (· < ·))
    (hsz : ∀ r ∈ recs, innerLen r + 5 ≤ maxBlockSize ∧ r.ID < 2 ^ 40)
    (hmax : maxBlockSize < 2 ^ 40) :
    getLastBlockID false (some ((recs.map marshallFileBlock).flatten)) maxBlockSize =
      .ok ((recs.getLast h).ID) ∧
    getLastBlockID false none maxBlockSize = .ok 0 := by
  refine ⟨?_, rfl⟩
  have hflat : (recs.map marshallFileBlock).flatten =
      ((recs.dropLast.map marshallFileBlock).flatten) ++
        marshallFileBlock (recs.getLast h) := by
    conv_lhs => rw [← List.dropLast_append_getLast h]
    simp [List.map_append, List.flatten_append]
  rw [hflat, getLastBlockID_append _ _ _ ((hsz _ (List.getLast_mem h)).1) hmax,
    Nat.mod_eq_of_lt ((hsz _ (List.getLast_mem h)).2)]

/-- C2 witness: two records `(1, [])`, `(2, [])` with `max_block_size = 100`;
the locator returns 2 on their concatenation and 0 on a missing file. -/
theorem c2_witness :
    getLastBlockID false
      (some ((([⟨1, []⟩, ⟨2, []⟩] : List blockData).map marshallFileBlock).flatten)) 100 =
      .ok 2 ∧
    getLastBlockID false none 100 = .ok 0 :=
  c2_locate_last [⟨1, []⟩, ⟨2, []⟩] 100 (by decide) (by decide) (by decide)
    (by norm_num)

/-- C6 counterexample: one complete frame for `(1, [])` followed by a
1-byte truncated tail (the first byte of the next frame for `(2, [])`):
the locator does not return the id of the last complete frame; it fails. -/
theorem c6_counterexample :
    (marshallFileBlock ⟨2, []⟩).take 1 = [0] ∧
    getLastBlockID false (some (marshallFileBlock ⟨1, []⟩ ++ [0])) 10000 ≠ .ok 1 := by
  decide

set_option maxHeartbeats 1000000 in
/-- C6 (amended): appending a 1-byte truncated partial frame after a complete
frame makes the reverse locator return an error (size-limit or seek failure)
rather than the id of the preceding complete record: truncated tails are not
tolerated. -/
theorem c6_truncated_tail_errors (b : blockData) (maxBlockSize : Nat)
    (hsm : innerLen b + 5 < 2 ^ 32) :
    (getLastBlockID false (some (marshallFileBlock b ++ [0])) maxBlockSize).isErr =
      true := by
  have hinner : 6 ≤ innerLen b := innerLen_ge b
  have hlen : (marshallFileBlock b ++ [0]).length = innerLen b + 11 := by
    rw [List.length_append, marshallFileBlock_length]
    rfl
  have hheadlen : (decToBin (innerLen b) 5 ++
      (decToBin b.ID 5 ++ (encodeLength b.Data.length ++ b.Data))).length =
      innerLen b + 5 := by
    simp only [List.length_append, decToBin_length, innerLen, WordSize]
    omega
  have hshape : marshallFileBlock b ++ [0] =
      (decToBin (innerLen b) 5 ++
        (decToBin b.ID 5 ++ (encodeLength b.Data.length ++ b.Data))) ++
        (decToBin (innerLen b + 5) 5 ++ [0]) := by
    rw [marshallFileBlock_eq]
    simp [List.append_assoc]
  have hsize : binToDec ((marshallFileBlock b ++ [0]).drop
      ((marshallFileBlock b ++ [0]).length - 5)) = (innerLen b + 5) * 256 := by
    rw [hlen]
    have heq : innerLen b + 11 - 5 = (innerLen b + 5) + 1 := by omega
    rw [heq, hshape]
    have hdrop1 : ((decToBin (innerLen b) 5 ++
        (decToBin b.ID 5 ++ (encodeLength b.Data.length ++ b.Data))) ++
          (decToBin (innerLen b + 5) 5 ++ [0])).drop ((innerLen b + 5) + 1) =
        (decToBin (innerLen b + 5) 5 ++ [0]).drop 1 := by
      rw [← hheadlen]
      exact List.drop_append 1
    rw [hdrop1, decToBin_succ, List.cons_append, List.drop_succ_cons, List.drop_zero,
      binToDec_append]
    have hz : binToDec [0] = 0 := rfl
    rw [hz, binToDec_decToBin]
    have h232 : (256 : Nat) ^ 4 = 2 ^ 32 := by norm_num
    rw [h232, Nat.mod_eq_of_lt hsm]
    simp
  simp only [getLastBlockID, WordSize]
  rw [if_neg (show ¬(false = true) by simp), if_neg (by omega), if_neg (by omega),
    hsize]
  by_cases hc : (innerLen b + 5) * 256 > maxBlockSize
  · rw [if_pos hc]
    rfl
  · rw [if_neg hc, if_pos (by omega)]
    rfl

/-- C6 witness: the amended statement at the concrete frame `(1, [])` with
`max_block_size = 10000`. -/
theorem c6_witness :
    innerLen ⟨1, []⟩ + 5 < 2 ^ 32 ∧
    (getLastBlockID false (some (marshallFileBlock ⟨1, []⟩ ++ [0])) 10000).isErr =
      true :=
  ⟨by decide, c6_truncated_tail_errors ⟨1, []⟩ 10000 (by decide)⟩

theorem filterMap_ledger (ledger : Nat → Option (List Nat)) (pl : Nat → List Nat)
    (hled : ∀ i, ledger i = some (pl i)) (l : List Nat) :
    l.filterMap (fun i => (ledger i).map (fun d => blockData.mk i d)) =
      l.map (fun i => blockData.mk i (pl i)) := by
  induction l with
  | nil => rfl
  | cons x t ih =>
    have hx : (ledger x).map (fun d => blockData.mk x d) =
        some (blockData.mk x (pl x)) := by
      rw [hled x]
      rfl
    have hstep := @List.filterMap_cons_some _ _
      (fun i => (ledger i).map (fun d => blockData.mk i d)) x t
      (blockData.mk x (pl x)) hx
    rw [hstep, ih, List.map_cons]

/-- C4: with a last saved id of 100 and `min_batch = 50`, `writeNextBlocks`
writes nothing at chain height 140, and at chain height 200 it appends
exactly the frames of the ledger blocks with ids 101 through 150 (the
fetched range excludes the boundary id 100). -/
theorem c4_batch_threshold (maxBlockSize : Nat) (ledger : Nat → Option (List Nat))
    (pl : Nat → List Nat) (file : Option (List Nat))
    (hlast : getLastBlockID false file maxBlockSize = .ok 100)
    (hled : ∀ i, ledger i = some (pl i)) :
    writeNextBlocks false maxBlockSize 50 140 ledger file = .ok file ∧
    writeNextBlocks false maxBlockSize 50 200 ledger file =
      .ok (some (file.getD [] ++
        (((List.range' 101 50).map (fun i => blockData.mk i (pl i))).map
          marshallFileBlock).flatten)) ∧
    getBlockchain 100 150 ledger =
      (List.range' 101 50).map (fun i => blockData.mk i (pl i)) := by
  have hgb : getBlockchain 100 150 ledger =
      (List.range' 101 50).map (fun i => blockData.mk i (pl i)) := by
    simp only [getBlockchain]
    rw [filterMap_ledger ledger pl hled]
  refine ⟨?_, ?_, hgb⟩
  · simp only [writeNextBlocks, hlast]
    rw [if_pos (by norm_num)]
  · simp only [writeNextBlocks, hlast]
    rw [if_neg (by norm_num), show (100 : Nat) + 50 = 150 from rfl, hgb]

/-- C4 witness: a file holding the single frame `(100, [])`, a total ledger
with empty payloads, `max_block_size = 100`. -/
theorem c4_witness :
    writeNextBlocks false 100 50 140 (fun _ => some []) (some (marshallFileBlock ⟨100, []⟩)) =
      .ok (some (marshallFileBlock ⟨100, []⟩)) ∧
    writeNextBlocks false 100 50 200 (fun _ => some []) (some (marshallFileBlock ⟨100, []⟩)) =
      .ok (some (marshallFileBlock ⟨100, []⟩ ++
        (((List.range' 101 50).map (fun i => blockData.mk i [])).map
          marshallFileBlock).flatten)) :=
  ⟨(c4_batch_threshold 100 (fun _ => some []) (fun _ => []) _ (by decide) (fun i => rfl)).1,
    (c4_batch_threshold 100 (fun _ => some []) (fun _ => []) _ (by decide) (fun i => rfl)).2.1⟩

/-- C5 counterexample: with ledger height 10, `min_batch = 1` and an unchanged
ledger, the run after a completed run is not a byte-level no-op: the first
run archives block 1, the second run appends block 2's frame. -/
theorem c5_counterexample :
    writeNextBlocks false 100 1 10 (fun i => some [i]) none =
      .ok (some (marshallFileBlock ⟨1, [1]⟩)) ∧
    writeNextBlocks false 100 1 10 (fun i => some [i])
        (some (marshallFileBlock ⟨1, [1]⟩)) ≠
      .ok (some (marshallFileBlock ⟨1, [1]⟩)) := by
  decide

/-- C5 (amended): a second `writeNextBlocks` run never re-appends a record id
already at the end of the archive: when `current_height − min_batch` is below
the last archived id it writes nothing, and otherwise it appends exactly the
frames of ledger blocks with ids strictly greater than the last archived id
(continuing catch-up, so it is not unconditionally a byte-level no-op). -/
theorem c5_second_run (maxBlockSize minToSave curBlockID lastID : Nat)
    (ledger : Nat → Option (List Nat)) (bytes : List Nat)
    (hloc : getLastBlockID false (some bytes) maxBlockSize = .ok lastID) :
    ((curBlockID : Int) - (minToSave : Int) < (lastID : Int) →
      writeNextBlocks false maxBlockSize minToSave curBlockID ledger (some bytes) =
        .ok (some bytes)) ∧
    (¬ ((curBlockID : Int) - (minToSave : Int) < (lastID : Int)) →
      writeNextBlocks false maxBlockSize minToSave curBlockID ledger (some bytes) =
        .ok (some (bytes ++
          ((getBlockchain lastID (lastID + minToSave) ledger).map
            marshallFileBlock).flatten)) ∧
      ∀ r ∈ getBlockchain lastID (lastID + minToSave) ledger, lastID < r.ID) := by
  constructor
  · intro hc
    simp only [writeNextBlocks, hloc]
    rw [if_pos hc]
  · intro hc
    constructor
    · simp only [writeNextBlocks, hloc]
      rw [if_neg hc]
      rfl
    · intro r hr
      simp only [getBlockchain, List.mem_filterMap] at hr
      obtain ⟨i, hi, hmap⟩ := hr
      rw [List.mem_range'_1] at hi
      rw [Option.map_eq_some'] at hmap
      obtain ⟨d, _, hf⟩ := hmap
      rw [← hf]
      show lastID < i
      omega

/-- C5 witness: the non-caught-up branch of the amended statement at the
concrete state of the counterexample's second run. -/
theorem c5_witness :
    writeNextBlocks false 100 1 10 (fun i => some [i])
        (some (marshallFileBlock ⟨1, [1]⟩)) =
      .ok (some (marshallFileBlock ⟨1, [1]⟩ ++
        ((getBlockchain 1 2 (fun i => some [i])).map marshallFileBlock).flatten)) :=
  ((c5_second_run 100 1 10 1 (fun i => some [i]) (marshallFileBlock ⟨1, [1]⟩)
    (by decide)).2 (by decide)).1
